import Mathlib

/-!
Verification of the NovelTextToJsonDatasetGenerator pipeline.

The Python program reads novel text files, greedily packs their lines into
size-bounded chunks (process_lines), pairs consecutive chunks into
instruction/input/output records (convert_to_records), and aggregates the
per-file record lists over a directory (generate_json_dataset), running the
per-file work through a multiprocessing pool and writing the flattened result
to dataset.json.  This file gives a shallow embedding of those functions and
proves the stated properties about them.
-/

namespace Novel

/-- A training record as built by convert_to_records: a dict with the three
string fields instruction, input and output. -/
structure Record where
  instruction : String
  input : String
  output : String
deriving DecidableEq, Repr

/-- The fixed instruction literal used by convert_to_records (source line 76). -/
def pair_instruction : String :=
  "下列为一部小说中的一部分内容，请参照这部分内容，续写下一部分。"

/-- The for-loop of process_lines (source lines 59-64).  The state is the pair
(sections, section): the list of emitted chunks and the current buffer.  Each
line is appended to the buffer when the summed length stays strictly below
max_size; otherwise the buffer is emitted and the line starts a new buffer. -/
def process_lines_loop (max_size : Nat) : List String → List String × String → List String × String
  | [], st => st
  | line :: rest, (secs, sect) =>
      if sect.length + line.length < max_size then
        process_lines_loop max_size rest (secs, sect ++ line)
      else
        process_lines_loop max_size rest (secs ++ [sect], line)

/-- Embedding of process_lines (source lines 54-68).  After the loop, the final
buffer is appended iff it is non-empty (Python truthiness of the string in
the final if).  The Python default for max_size is 512; callers in this file
pass it explicitly. -/
def process_lines (lines : List String) (max_size : Nat) : List String :=
  let st := process_lines_loop max_size lines ([], "")
  if st.2 = "" then st.1 else st.1 ++ [st.2]

/-- The greedy accumulation rule exactly as the specification words it (spec
section 4.2 / claim C1): a left fold over the lines carrying (chunks, buffer),
appending a line iff the summed length is strictly below max_size, otherwise
emitting the buffer and restarting from the current line; after the fold the
buffer is emitted iff non-empty. -/
def chunkPackerSpec (lines : List String) (max_size : Nat) : List String :=
  let st := lines.foldl
    (fun (acc : List String × String) line =>
      if acc.2.length + line.length < max_size then (acc.1, acc.2 ++ line)
      else (acc.1 ++ [acc.2], line))
    ([], "")
  if st.2 = "" then st.1 else st.1 ++ [st.2]

lemma process_lines_loop_eq_foldl (max_size : Nat) (lines : List String) :
    ∀ st : List String × String,
      process_lines_loop max_size lines st
        = lines.foldl
            (fun (acc : List String × String) line =>
              if acc.2.length + line.length < max_size then (acc.1, acc.2 ++ line)
              else (acc.1 ++ [acc.2], line))
            st := by
  induction lines with
  | nil => intro st; rfl
  | cons l rest ih =>
      intro st
      obtain ⟨secs, sect⟩ := st
      by_cases h : sect.length + l.length < max_size
      · simp only [process_lines_loop, List.foldl_cons, if_pos h]
        exact ih (secs, sect ++ l)
      · simp only [process_lines_loop, List.foldl_cons, if_neg h]
        exact ih (secs ++ [sect], l)

/-- C1: process_lines implements the greedy accumulation rule exactly as the
specification states it: scanning lines in order with an initially empty
buffer, a line is appended iff the summed length is strictly below max_size,
otherwise the buffer is emitted and a new buffer starts with the current line;
after the last line the buffer is emitted iff non-empty. -/
theorem process_lines_implements_greedy_rule (lines : List String) (max_size : Nat) :
    process_lines lines max_size = chunkPackerSpec lines max_size := by
  unfold process_lines chunkPackerSpec
  rw [process_lines_loop_eq_foldl]

lemma string_join_cons (a : String) (l : List String) :
    String.join (a :: l) = a ++ String.join l := by
  apply String.ext
  simp [String.join_eq]

lemma string_join_append (u v : List String) :
    String.join (u ++ v) = String.join u ++ String.join v := by
  apply String.ext
  simp [String.join_eq]

lemma string_foldl_append (l : List String) :
    ∀ s : String, List.foldl (fun r t => r ++ t) s l = s ++ String.join l := by
  induction l with
  | nil => intro s; simp [String.join]
  | cons a t ih =>
      intro s
      rw [List.foldl_cons, ih (s ++ a), string_join_cons, String.append_assoc]

lemma process_lines_loop_join (max_size : Nat) (lines : List String) :
    ∀ (secs : List String) (sect : String),
      String.join (process_lines_loop max_size lines (secs, sect)).1
          ++ (process_lines_loop max_size lines (secs, sect)).2
        = String.join secs ++ sect ++ String.join lines := by
  induction lines with
  | nil =>
      intro secs sect
      simp [process_lines_loop, String.join]
  | cons l rest ih =>
      intro secs sect
      by_cases h : sect.length + l.length < max_size
      · simp only [process_lines_loop, if_pos h]
        rw [ih]
        rw [string_join_cons]
        simp [String.append_assoc]
      · simp only [process_lines_loop, if_neg h]
        rw [ih]
        rw [string_join_append, string_join_cons]
        simp only [String.join, List.foldl_cons, List.foldl_nil]
        rw [string_foldl_append rest ("" ++ l), string_foldl_append rest ""]
        simp [String.append_assoc]

/-- C2: for every size bound S greater than zero, concatenating the chunks
returned by process_lines in order reproduces the concatenation of the input
lines: no character is lost, duplicated or reordered. -/
theorem process_lines_concat_roundtrip (lines : List String) (S : Nat) (hS : 0 < S) :
    String.join (process_lines lines S) = String.join lines := by
  unfold process_lines
  have h := process_lines_loop_join S lines [] ""
  simp only [String.join, List.foldl_nil] at h
  set st := process_lines_loop S lines ([], "") with hst
  by_cases h2 : st.2 = ""
  · simp only [if_pos h2]
    rw [h2] at h
    simpa using h
  · simp only [if_neg h2]
    rw [string_join_append]
    simpa [String.join] using h

/-- C2 witness: the round-trip law applied at a concrete input. -/
theorem process_lines_concat_roundtrip_witness :
    0 < 3 ∧ String.join (process_lines ["ab", "cd", "ef"] 3) = String.join ["ab", "cd", "ef"] :=
  ⟨by decide, process_lines_concat_roundtrip ["ab", "cd", "ef"] 3 (by decide)⟩

lemma append_ne_empty_left (s t : String) (h : s ≠ "") : s ++ t ≠ "" := by
  intro hc
  apply h
  apply String.ext
  have hd := congrArg String.data hc
  simp only [String.data_append] at hd
  rcases List.append_eq_nil.1 (by simpa using hd) with ⟨h1, _⟩
  simpa using h1

lemma process_lines_loop_nonempty (max_size : Nat) :
    ∀ (lines : List String) (secs : List String) (sect : String),
      (∀ l ∈ lines, l ≠ "") → (∀ c ∈ secs, c ≠ "") → sect ≠ "" →
      (∀ c ∈ (process_lines_loop max_size lines (secs, sect)).1, c ≠ "")
        ∧ (process_lines_loop max_size lines (secs, sect)).2 ≠ "" := by
  intro lines
  induction lines with
  | nil =>
      intro secs sect _ hs hsect
      exact ⟨hs, hsect⟩
  | cons l rest ih =>
      intro secs sect hl hs hsect
      by_cases h : sect.length + l.length < max_size
      · simp only [process_lines_loop, if_pos h]
        exact ih _ _ (fun x hx => hl x (List.mem_cons_of_mem _ hx)) hs
          (append_ne_empty_left _ _ hsect)
      · simp only [process_lines_loop, if_neg h]
        refine ih _ _ (fun x hx => hl x (List.mem_cons_of_mem _ hx)) ?_
          (hl l (List.mem_cons_self _ _))
        intro c hc
        rcases List.mem_append.1 hc with h1 | h2
        · exact hs c h1
        · rw [List.mem_singleton] at h2
          rw [h2]
          exact hsect

/-- A single line of exactly 512 characters, the default max_size. -/
def oversize_line : String := String.mk (List.replicate 512 'a')

set_option maxRecDepth 4096 in
/-- C3 counterexample: a non-empty input consisting of one line of exactly 512
characters (the default max_size) makes process_lines emit the empty initial
buffer as its first chunk, so the output contains an empty chunk even though
the input line sequence is non-empty and contains no empty line. -/
theorem process_lines_empty_chunk_counterexample :
    oversize_line ≠ "" ∧ "" ∈ process_lines [oversize_line] 512 := by decide

/-- C3 amended: every chunk produced by process_lines is a non-empty string
provided that every input line is non-empty and the first input line (if any)
is strictly shorter than max_size; without the condition on the first line the
code can emit the empty initial buffer as a chunk (see the counterexample).
An empty input line sequence still yields zero chunks. -/
theorem process_lines_chunks_nonempty (lines : List String) (max_size : Nat)
    (h1 : ∀ l ∈ lines, l ≠ "")
    (h2 : ∀ l, lines.head? = some l → l.length < max_size) :
    ∀ c ∈ process_lines lines max_size, c ≠ "" := by
  cases lines with
  | nil =>
      intro c hc
      simp [process_lines, process_lines_loop] at hc
  | cons l0 rest =>
      have hl0 : l0.length < max_size := h2 l0 rfl
      have hfit : "".length + l0.length < max_size := by simpa using hl0
      have key := process_lines_loop_nonempty max_size rest [] ("" ++ l0)
        (fun x hx => h1 x (List.mem_cons_of_mem _ hx))
        (fun c hc => absurd hc (List.not_mem_nil c))
        (by simpa using h1 l0 (List.mem_cons_self _ _))
      intro c hc
      simp only [process_lines, process_lines_loop, if_pos hfit] at hc
      by_cases hend : (process_lines_loop max_size rest ([], "" ++ l0)).2 = ""
      · rw [if_pos hend] at hc
        exact key.1 c hc
      · rw [if_neg hend] at hc
        rcases List.mem_append.1 hc with hA | hB
        · exact key.1 c hA
        · rw [List.mem_singleton] at hB
          rw [hB]
          exact key.2

/-- C3 amended witness: the non-emptiness of the chunks at a concrete input. -/
theorem process_lines_chunks_nonempty_witness :
    (∀ l ∈ ["ab", "cd"], l ≠ "") ∧
      (∀ l, (["ab", "cd"] : List String).head? = some l → l.length < 3) ∧
      ∀ c ∈ process_lines ["ab", "cd"] 3, c ≠ "" :=
  ⟨by decide, by decide,
    process_lines_chunks_nonempty ["ab", "cd"] 3 (by decide) (by decide)⟩

lemma process_lines_loop_size_bound (S : Nat) (lines0 : List String) :
    ∀ (rest : List String) (secs : List String) (sect : String),
      (∀ l ∈ rest, l ∈ lines0) →
      (∀ c ∈ secs, c.length < S ∨ ∃ l ∈ lines0, c = l ∧ S ≤ l.length) →
      (sect.length < S ∨ ∃ l ∈ lines0, sect = l ∧ S ≤ l.length) →
      (∀ c ∈ (process_lines_loop S rest (secs, sect)).1,
          c.length < S ∨ ∃ l ∈ lines0, c = l ∧ S ≤ l.length)
        ∧ ((process_lines_loop S rest (secs, sect)).2.length < S
            ∨ ∃ l ∈ lines0, (process_lines_loop S rest (secs, sect)).2 = l ∧ S ≤ l.length) := by
  intro rest
  induction rest with
  | nil =>
      intro secs sect _ hs hsect
      exact ⟨hs, hsect⟩
  | cons l rs ih =>
      intro secs sect hsub hs hsect
      by_cases h : sect.length + l.length < S
      · simp only [process_lines_loop, if_pos h]
        refine ih _ _ (fun x hx => hsub x (List.mem_cons_of_mem _ hx)) hs ?_
        left
        rw [String.length_append]
        exact h
      · simp only [process_lines_loop, if_neg h]
        refine ih _ _ (fun x hx => hsub x (List.mem_cons_of_mem _ hx)) ?_ ?_
        · intro c hc
          rcases List.mem_append.1 hc with h1 | h2
          · exact hs c h1
          · rw [List.mem_singleton] at h2
            rw [h2]
            exact hsect
        · by_cases hl : l.length < S
          · exact Or.inl hl
          · exact Or.inr ⟨l, hsub l (List.mem_cons_self _ _), rfl, Nat.le_of_not_lt hl⟩

/-- C6: every chunk produced by process_lines other than possibly the last one
either has length strictly below the size bound S, or is exactly one input
line whose own length is at least S (an oversize line becomes its own chunk
and is never split). -/
theorem process_lines_chunk_size_bound (lines : List String) (S : Nat) (hS : 0 < S) :
    ∀ c ∈ (process_lines lines S).dropLast,
      c.length < S ∨ ∃ l ∈ lines, c = l ∧ S ≤ l.length := by
  intro c hc
  have hc2 : c ∈ process_lines lines S := (List.dropLast_sublist _).subset hc
  have key := process_lines_loop_size_bound S lines lines []
    "" (fun l h => h) (fun c hc => absurd hc (List.not_mem_nil c))
    (Or.inl (by simpa using hS))
  unfold process_lines at hc2
  by_cases hend : (process_lines_loop S lines ([], "")).2 = ""
  · rw [if_pos hend] at hc2
    exact key.1 c hc2
  · rw [if_neg hend] at hc2
    rcases List.mem_append.1 hc2 with hA | hB
    · exact key.1 c hA
    · rw [List.mem_singleton] at hB
      rw [hB]
      exact key.2

/-- C6 witness: the size bound at a concrete input where an oversize line
becomes its own chunk. -/
theorem process_lines_chunk_size_bound_witness :
    0 < 2 ∧
      ∀ c ∈ (process_lines ["aaaa", "b"] 2).dropLast,
        c.length < 2 ∨ ∃ l ∈ ["aaaa", "b"], c = l ∧ 2 ≤ l.length :=
  ⟨by decide, process_lines_chunk_size_bound ["aaaa", "b"] 2 (by decide)⟩

/-- The for-loop of convert_to_records (source lines 74-80): the Python loop
runs i over range(0, len(sections) - 1, 2), appending one record per
iteration built from sections[i] and sections[i + 1].  Natural-number
subtraction coincides with the Python stop value here because for
len(sections) = 0 the Python range(0, -1, 2) is empty, exactly as i < 0 - 1
is false on Nat. -/
def convert_to_records_loop (sections : List String) (i : Nat) (records : List Record) : List Record :=
  if h : i < sections.length - 1 then
    convert_to_records_loop sections (i + 2)
      (records ++ [{ instruction := pair_instruction,
                     input := sections.get ⟨i, by omega⟩,
                     output := sections.get ⟨i + 1, by omega⟩ }])
  else records
termination_by sections.length - i
decreasing_by omega

/-- Embedding of convert_to_records (source lines 70-82). -/
def convert_to_records (sections : List String) : List Record :=
  convert_to_records_loop sections 0 []

/-- The record built from the pair of chunks at indices 2t and 2t+1, as the
specification describes record number t. -/
def pairAt (sections : List String) (t : Nat) : Record :=
  { instruction := pair_instruction,
    input := sections.getD (2 * t) "",
    output := sections.getD (2 * t + 1) "" }

lemma getD_eq_get (l : List String) (i : Nat) (h : i < l.length) :
    l.getD i "" = l.get ⟨i, h⟩ := by
  simp [List.getD, List.getElem?_eq_getElem h]

lemma convert_to_records_loop_append (sections : List String) :
    ∀ (d i : Nat) (records : List Record), sections.length - i ≤ d →
      convert_to_records_loop sections i records
        = records ++ convert_to_records_loop sections i [] := by
  intro d
  induction d with
  | zero =>
      intro i records hd
      have h : ¬ i < sections.length - 1 := by omega
      rw [convert_to_records_loop, convert_to_records_loop, dif_neg h, dif_neg h]
      simp
  | succ d ih =>
      intro i records hd
      by_cases h : i < sections.length - 1
      · rw [convert_to_records_loop, convert_to_records_loop, dif_pos h, dif_pos h]
        rw [ih (i + 2) _ (by omega), ih (i + 2) ([] ++ _) (by omega)]
        simp
      · rw [convert_to_records_loop, convert_to_records_loop, dif_neg h, dif_neg h]
        simp

lemma convert_to_records_loop_closed (sections : List String) :
    ∀ (d j : Nat), sections.length / 2 - j ≤ d →
      convert_to_records_loop sections (2 * j) []
        = (List.range (sections.length / 2 - j)).map (fun k => pairAt sections (j + k)) := by
  intro d
  induction d with
  | zero =>
      intro j hd
      have hj : ¬ 2 * j < sections.length - 1 := by omega
      rw [convert_to_records_loop, dif_neg hj]
      have h0 : sections.length / 2 - j = 0 := by omega
      rw [h0]
      simp
  | succ d ih =>
      intro j hd
      by_cases h : 2 * j < sections.length - 1
      · rw [convert_to_records_loop, dif_pos h]
        rw [convert_to_records_loop_append sections sections.length (2 * j + 2) _ (by omega)]
        have h2 : 2 * j + 2 = 2 * (j + 1) := by ring
        rw [h2, ih (j + 1) (by omega)]
        have hr : sections.length / 2 - j = (sections.length / 2 - (j + 1)) + 1 := by omega
        rw [hr, List.range_succ_eq_map, List.map_cons, List.map_map]
        have hX : ({ instruction := pair_instruction,
                     input := sections.get ⟨2 * j, by omega⟩,
                     output := sections.get ⟨2 * j + 1, by omega⟩ } : Record)
            = pairAt sections (j + 0) := by
          unfold pairAt
          simp only [Nat.add_zero]
          rw [getD_eq_get sections (2 * j) (by omega), getD_eq_get sections (2 * j + 1) (by omega)]
        have hF : ((fun k => pairAt sections (j + k)) ∘ Nat.succ)
            = fun k => pairAt sections (j + 1 + k) := by
          funext k
          simp only [Function.comp]
          exact congrArg (pairAt sections) (by omega)
        rw [hF, hX]
        simp
      · rw [convert_to_records_loop, dif_neg h]
        have h0 : sections.length / 2 - j = 0 := by omega
        rw [h0]
        simp

/-- C4: convert_to_records maps a chunk sequence of length N to exactly
N / 2 (floor) records; record number k pairs the chunks at indices 2k and
2k + 1 as input and output, with the fixed instruction literal; in particular
N = 0 and N = 1 give zero records and an odd trailing chunk is dropped. -/
theorem convert_to_records_pairs_consecutive_chunks (sections : List String) :
    convert_to_records sections = (List.range (sections.length / 2)).map (pairAt sections)
      ∧ (convert_to_records sections).length = sections.length / 2 := by
  have h0 : convert_to_records sections
      = (List.range (sections.length / 2 - 0)).map (fun k => pairAt sections (0 + k)) := by
    have h := convert_to_records_loop_closed sections (sections.length / 2) 0 (by omega)
    simpa [convert_to_records] using h
  constructor
  · rw [h0]
    simp
  · rw [h0]
    simp

/-- Variant of the convert_to_records loop in which each subscript access
sections[i] is checked, returning none where the Python code would raise an
IndexError instead of producing a record list. -/
def convert_to_records_checked_loop (sections : List String) (i : Nat) (records : List Record) :
    Option (List Record) :=
  if h : i < sections.length - 1 then
    (sections[i]?).bind (fun a =>
      (sections[i + 1]?).bind (fun b =>
        convert_to_records_checked_loop sections (i + 2)
          (records ++ [{ instruction := pair_instruction, input := a, output := b }])))
  else some records
termination_by sections.length - i
decreasing_by omega

/-- Checked variant of convert_to_records, none meaning an IndexError. -/
def convert_to_records_checked (sections : List String) : Option (List Record) :=
  convert_to_records_checked_loop sections 0 []

lemma convert_to_records_checked_loop_eq (sections : List String) :
    ∀ (d i : Nat) (records : List Record), sections.length - i ≤ d →
      convert_to_records_checked_loop sections i records
        = some (convert_to_records_loop sections i records) := by
  intro d
  induction d with
  | zero =>
      intro i records hd
      have h : ¬ i < sections.length - 1 := by omega
      rw [convert_to_records_checked_loop, convert_to_records_loop, dif_neg h, dif_neg h]
  | succ d ih =>
      intro i records hd
      by_cases h : i < sections.length - 1
      · rw [convert_to_records_checked_loop, convert_to_records_loop, dif_pos h, dif_pos h]
        rw [List.getElem?_eq_getElem (show i < sections.length by omega),
          List.getElem?_eq_getElem (show i + 1 < sections.length by omega)]
        simp only [Option.some_bind]
        rw [ih (i + 2) _ (by omega)]
        rfl
      · rw [convert_to_records_checked_loop, convert_to_records_loop, dif_neg h, dif_neg h]

/-- C10: convert_to_records never performs an out-of-range subscript access:
the checked variant, which returns none exactly where the Python indexing
would raise, returns some on every input, and its value is the record list
computed by convert_to_records; in particular the function is total, also on
the empty and singleton lists. -/
theorem convert_to_records_no_out_of_range (sections : List String) :
    convert_to_records_checked sections = some (convert_to_records sections) := by
  unfold convert_to_records_checked convert_to_records
  exact convert_to_records_checked_loop_eq sections sections.length 0 [] (by omega)

/-- Embedding of os.path.join as used on source line 97: the directory name,
a path separator, and the entry name. -/
def joinPath (dir f : String) : String := dir ++ "/" ++ f

/-- Embedding of the Python str.endswith test: the character sequence of the
suffix argument is a suffix of the character sequence of the string. -/
def py_endswith (s suffix : String) : Bool := suffix.data.isSuffixOf s.data

/-- The qualifying-file enumeration of source line 97: keep the directory
entries whose name ends with .txt, in the listing order, and join each with
the input directory. -/
def text_files (input_dir : String) (entries : List String) : List String :=
  (entries.filter (fun f => py_endswith f ".txt")).map (fun f => joinPath input_dir f)

lemma length_filter_split (l : List String) (p : String → Bool) :
    (l.filter p).length + (l.filter (fun a => !p a)).length = l.length := by
  induction l with
  | nil => rfl
  | cons a t ih => by_cases h : p a <;> simp [List.filter, h] <;> omega

lemma joinPath_right_inj (dir f g : String) (h : joinPath dir f = joinPath dir g) : f = g := by
  unfold joinPath at h
  apply String.ext
  have hd := congrArg String.data h
  simp only [String.data_append] at hd
  exact List.append_cancel_left hd

/-- The suffix test used by the embedding agrees with the abstract statement
that the characters of .txt form a suffix of the file name. -/
lemma py_endswith_iff_suffix (a b : String) : py_endswith a b = true ↔ b.data <:+ a.data := by
  simp [py_endswith, List.isSuffixOf_iff_suffix]

/-- C7: the per-run file list processes exactly the directory entries whose
name ends with .txt, in the native listing order (the qualifying names form a
sublist of the listing), and ignores every other entry; the counts of
processed and ignored entries add up to the full listing length. -/
theorem generate_json_dataset_processes_txt_only (input_dir : String) (entries : List String) :
    (text_files input_dir entries).length
        = (entries.filter (fun f => py_endswith f ".txt")).length
      ∧ (text_files input_dir entries).length
          + (entries.filter (fun f => !py_endswith f ".txt")).length = entries.length
      ∧ (entries.filter (fun f => py_endswith f ".txt")).Sublist entries
      ∧ ∀ g ∈ entries,
          (joinPath input_dir g ∈ text_files input_dir entries
            ↔ ".txt".data <:+ g.data) := by
  refine ⟨by simp [text_files], ?_, List.filter_sublist _, ?_⟩
  · rw [show (text_files input_dir entries).length
        = (entries.filter (fun f => py_endswith f ".txt")).length by simp [text_files]]
    exact length_filter_split entries _
  · intro g hg
    constructor
    · intro hmem
      rcases List.mem_map.1 hmem with ⟨g2, hg2, hjoin⟩
      have hgg : g2 = g := joinPath_right_inj input_dir g2 g hjoin
      subst hgg
      exact (py_endswith_iff_suffix _ _).1 (List.mem_filter.1 hg2).2
    · intro hsuf
      exact List.mem_map_of_mem _
        (List.mem_filter.2 ⟨hg, (py_endswith_iff_suffix _ _).2 hsuf⟩)

/-- C7 witness: in a directory with three qualifying and two non-qualifying
entries, a qualifying entry is processed. -/
theorem generate_json_dataset_processes_txt_only_witness :
    joinPath "novel" "a.txt" ∈ text_files "novel" ["a.txt", "b.txt", "c.txt", "notes.md", "cover.png"] :=
  ((generate_json_dataset_processes_txt_only "novel"
      ["a.txt", "b.txt", "c.txt", "notes.md", "cover.png"]).2.2.2 "a.txt" (by decide)).mpr (by decide)

/-- Embedding of process_single_file (source lines 84-91) on the lines of one
file: chunk with the default max_size 512, then pair into records. -/
def process_single_file (lines : List String) : List Record :=
  convert_to_records (process_lines lines 512)

/-- A directory as the program sees it: the entries returned by os.listdir in
native order, and the lines that reading each joined path yields. -/
structure Directory where
  entries : List String
  content : String → List String

/-- The stream of per-task completions of the multiprocessing pool: the
completion order is an arbitrary list of task indices, and each completion
carries the index of its task together with the value computed for it. -/
def pool_completions {α β : Type} [Inhabited α] (f : α → β) (tasks : List α)
    (order : List Nat) : List (Nat × β) :=
  order.map (fun i => (i, f (tasks.getD i default)))

/-- Positional lookup of the result completed for task index j. -/
def lookup_index {β : Type} (j : Nat) : List (Nat × β) → Option β
  | [] => none
  | (i, b) :: rest => if i = j then some b else lookup_index j rest

/-- Model of Pool.map (source line 102): tasks are completed in an arbitrary
completion order, and the fan-in assembles the results positionally by task
index, never by completion order. -/
def pool_map {α β : Type} [Inhabited α] (f : α → β) (tasks : List α)
    (order : List Nat) : List β :=
  (List.range tasks.length).filterMap (fun j => lookup_index j (pool_completions f tasks order))

/-- Embedding of generate_json_dataset (source lines 93-113): enumerate the
qualifying files, fan the per-file pipeline out over the pool with completion
order given by the order argument, and flatten the reassembled per-file
record lists.  The flattened list is both written to dataset.json and
returned. -/
def generate_json_dataset (input_dir : String) (dir : Directory) (order : List Nat) :
    List Record :=
  (pool_map (fun p => process_single_file (dir.content p))
    (text_files input_dir dir.entries) order).flatten

lemma lookup_index_map {β : Type} (g : Nat → β) (order : List Nat) (j : Nat) (hj : j ∈ order) :
    lookup_index j (order.map (fun i => (i, g i))) = some (g j) := by
  induction order with
  | nil => cases hj
  | cons i rest ih =>
      rw [List.map_cons]
      simp only [lookup_index]
      by_cases h : i = j
      · subst h; simp
      · rw [if_neg h]
        refine ih ?_
        rcases List.mem_cons.1 hj with h1 | h2
        · exact absurd h1.symm h
        · exact h2

lemma filterMap_eq_map_of_some {α β : Type} (l : List α) (F : α → Option β) (g : α → β)
    (hF : ∀ a ∈ l, F a = some (g a)) : l.filterMap F = l.map g := by
  induction l with
  | nil => rfl
  | cons a t ih =>
      rw [List.filterMap_cons_some (hF a (List.mem_cons_self _ _)), List.map_cons,
        ih (fun x hx => hF x (List.mem_cons_of_mem _ hx))]

lemma map_getD_range {α β : Type} [Inhabited α] (f : α → β) (l : List α) :
    (List.range l.length).map (fun j => f (l.getD j default)) = l.map f := by
  induction l with
  | nil => rfl
  | cons a t ih =>
      rw [List.length_cons, List.range_succ_eq_map, List.map_cons, List.map_map]
      have h : ((fun j => f ((a :: t).getD j default)) ∘ Nat.succ)
          = fun j => f (t.getD j default) := by
        funext j
        simp [List.getD_cons_succ]
      rw [h, ih]
      simp

lemma pool_map_eq_map {α β : Type} [Inhabited α] (f : α → β) (tasks : List α)
    (order : List Nat) (h : order.Perm (List.range tasks.length)) :
    pool_map f tasks order = tasks.map f := by
  unfold pool_map pool_completions
  rw [filterMap_eq_map_of_some (List.range tasks.length) _
    (fun j => f (tasks.getD j default)) ?_]
  · exact map_getD_range f tasks
  · intro j hj
    exact lookup_index_map (fun i => f (tasks.getD i default)) order j (h.mem_iff.2 hj)

/-- C5: for every completion order of the pool workers that is a permutation
of the task indices, generate_json_dataset returns exactly the concatenation
of the per-file record lists in file-enumeration order, so the parallel
fan-out/fan-in coincides with a sequential map over the file list followed by
flattening, and the total record count is the sum of the per-file counts. -/
theorem generate_json_dataset_seq_equiv (input_dir : String) (dir : Directory)
    (order : List Nat)
    (h : order.Perm (List.range (text_files input_dir dir.entries).length)) :
    generate_json_dataset input_dir dir order
        = ((text_files input_dir dir.entries).map
            (fun p => process_single_file (dir.content p))).flatten
      ∧ (generate_json_dataset input_dir dir order).length
          = ((text_files input_dir dir.entries).map
              (fun p => (process_single_file (dir.content p)).length)).sum := by
  have hmain : generate_json_dataset input_dir dir order
      = ((text_files input_dir dir.entries).map
          (fun p => process_single_file (dir.content p))).flatten := by
    unfold generate_json_dataset
    rw [pool_map_eq_map _ _ order h]
  refine ⟨hmain, ?_⟩
  rw [hmain, List.length_flatten, List.map_map]
  rfl

/-- A concrete directory with two qualifying text files and one ignored
entry, used by closed witnesses. -/
def dirW : Directory :=
  { entries := ["a.txt", "b.md", "c.txt"],
    content := fun p =>
      if p = "in/a.txt" then ["cats\n", "dogs\n"]
      else if p = "in/c.txt" then ["one\n", "two\n", "three\n"]
      else [] }

/-- C5 witness: the sequential-equivalence law applied at a concrete
directory with the completion order reversed. -/
theorem generate_json_dataset_seq_equiv_witness :
    ([1, 0] : List Nat).Perm (List.range (text_files "in" dirW.entries).length)
      ∧ (generate_json_dataset "in" dirW [1, 0]
            = ((text_files "in" dirW.entries).map
                (fun p => process_single_file (dirW.content p))).flatten
          ∧ (generate_json_dataset "in" dirW [1, 0]).length
              = ((text_files "in" dirW.entries).map
                  (fun p => (process_single_file (dirW.content p)).length)).sum) :=
  ⟨by decide, generate_json_dataset_seq_equiv "in" dirW [1, 0] (by decide)⟩

/-- Embedding of read_text_file (source lines 42-52) over an abstract file
system: reading a path either yields the list of lines of the file or fails
with an IO error message, which the function re-raises unchanged. -/
def read_text_file (fs : String → Except String (List String)) (path : String) :
    Except String (List String) :=
  fs path

/-- Fallible per-file pipeline (source lines 84-91): a read failure
propagates; otherwise the records of the file are produced. -/
def process_single_file_run (fs : String → Except String (List String)) (path : String) :
    Except String (List Record) :=
  match read_text_file fs path with
  | Except.error e => Except.error e
  | Except.ok lines => Except.ok (process_single_file lines)

/-- Model of Pool.map when workers can raise: the map fails as soon as any
per-task computation fails, and succeeds with all results otherwise. -/
def mapExceptSeq {α β : Type} (f : α → Except String β) : List α → Except String (List β)
  | [] => Except.ok []
  | a :: rest =>
      match f a with
      | Except.error e => Except.error e
      | Except.ok b =>
          match mapExceptSeq f rest with
          | Except.error e => Except.error e
          | Except.ok bs => Except.ok (b :: bs)

/-- Fallible embedding of generate_json_dataset (source lines 93-113): the
ok value is the record list that is both written to dataset.json and
returned; the error value models the raised exception propagating out of the
pool before the artifact write on lines 109-110 is ever reached, so an error
means no dataset artifact is written. -/
def generate_json_dataset_run (fs : String → Except String (List String))
    (input_dir : String) (entries : List String) : Except String (List Record) :=
  match mapExceptSeq (process_single_file_run fs) (text_files input_dir entries) with
  | Except.error e => Except.error e
  | Except.ok results => Except.ok results.flatten

lemma mapExceptSeq_error_of_mem {α β : Type} (f : α → Except String β) (l : List α) (a : α)
    (ha : a ∈ l) (e : String) (hfa : f a = Except.error e) :
    ∃ e2, mapExceptSeq f l = Except.error e2 := by
  induction l with
  | nil => cases ha
  | cons b rest ih =>
      rcases List.mem_cons.1 ha with h1 | h2
      · subst h1
        exact ⟨e, by simp [mapExceptSeq, hfa]⟩
      · cases hb : f b with
        | error e3 => exact ⟨e3, by simp [mapExceptSeq, hb]⟩
        | ok v =>
            rcases ih h2 with ⟨e2, hrec⟩
            exact ⟨e2, by simp [mapExceptSeq, hb, hrec]⟩

lemma mapExceptSeq_ok_forall {α β : Type} (f : α → Except String β) (l : List α) :
    ∀ res : List β, mapExceptSeq f l = Except.ok res → ∀ a ∈ l, ∃ b, f a = Except.ok b := by
  induction l with
  | nil =>
      intro res _ a ha
      cases ha
  | cons b rest ih =>
      intro res h a ha
      cases hb : f b with
      | error e => simp [mapExceptSeq, hb] at h
      | ok v =>
          cases hrec : mapExceptSeq f rest with
          | error e => simp [mapExceptSeq, hb, hrec] at h
          | ok bs =>
              rcases List.mem_cons.1 ha with h1 | h2
              · exact h1 ▸ ⟨v, hb⟩
              · exact ih bs hrec a h2

/-- C9: if reading any qualifying file fails, the whole batch run fails, and
since a failing run never reaches the artifact write, no dataset.json is
written; conversely the run only returns ok, and hence only writes the
artifact, when every qualifying file was read successfully. -/
theorem generate_json_dataset_aborts_on_read_failure (fs : String → Except String (List String))
    (input_dir : String) (entries : List String) :
    ((∃ p ∈ text_files input_dir entries, ∃ e, read_text_file fs p = Except.error e) →
        ∃ e2, generate_json_dataset_run fs input_dir entries = Except.error e2)
      ∧ ∀ recs, generate_json_dataset_run fs input_dir entries = Except.ok recs →
          ∀ p ∈ text_files input_dir entries, ∃ lines, read_text_file fs p = Except.ok lines := by
  constructor
  · rintro ⟨p, hp, e, he⟩
    have hpf : process_single_file_run fs p = Except.error e := by
      simp [process_single_file_run, he]
    rcases mapExceptSeq_error_of_mem (process_single_file_run fs) _ p hp e hpf with ⟨e2, h2⟩
    exact ⟨e2, by simp [generate_json_dataset_run, h2]⟩
  · intro recs hok p hp
    unfold generate_json_dataset_run at hok
    cases hm : mapExceptSeq (process_single_file_run fs) (text_files input_dir entries) with
    | error e =>
        rw [hm] at hok
        cases hok
    | ok results =>
        rcases mapExceptSeq_ok_forall (process_single_file_run fs) _ results hm p hp
          with ⟨b, hb⟩
        unfold process_single_file_run at hb
        cases hr : read_text_file fs p with
        | error e =>
            rw [hr] at hb
            cases hb
        | ok lines => exact ⟨lines, rfl⟩

/-- A file system in which one qualifying file is unreadable. -/
def fsW : String → Except String (List String) :=
  fun p => if p = "in/bad.txt" then Except.error "boom" else Except.ok ["x\n"]

/-- C9 witness: the abort law applied to a concrete directory in which one
qualifying file fails to read. -/
theorem generate_json_dataset_aborts_on_read_failure_witness :
    ∃ e2, generate_json_dataset_run fsW "in" ["bad.txt", "good.md"] = Except.error e2 :=
  (generate_json_dataset_aborts_on_read_failure fsW "in" ["bad.txt", "good.md"]).1
    ⟨joinPath "in" "bad.txt", by decide, "boom", rfl⟩

/-- A handle to an uploaded remote file, with the fields the script uses. -/
structure RemoteFile where
  name : String
  display_name : String

/-- Outcome of the polling loop: done records the sleep durations observed
before the loop broke on ACTIVE; failed carries the message of the raised
exception and the sleeps so far; pending means the finite observation stream
was exhausted with the loop still waiting. -/
inductive WaitOutcome where
  | done : List Nat → WaitOutcome
  | failed : String → List Nat → WaitOutcome
  | pending : List Nat → WaitOutcome
deriving DecidableEq, Repr

/-- Inner while-loop of wait_for_files_active (source lines 31-39) for one
file: statuses is the stream of state names reported by successive
genai.get_file calls; after each check that is neither ACTIVE nor FAILED the
loop sleeps a fixed 10 time units, recorded in the sleeps accumulator. -/
def poll_file (file : RemoteFile) : List String → List Nat → WaitOutcome
  | [], sleeps => WaitOutcome.pending sleeps
  | s :: rest, sleeps =>
      if s = "ACTIVE" then WaitOutcome.done sleeps
      else if s = "FAILED" then
        WaitOutcome.failed ("File " ++ file.name ++ " failed to process") sleeps
      else poll_file file rest (sleeps ++ [10])

/-- Embedding of wait_for_files_active (source lines 27-40): poll each file
in turn, stopping the whole wait on the first failure or exhausted stream. -/
def wait_for_files_active : List (RemoteFile × List String) → List Nat → WaitOutcome
  | [], sleeps => WaitOutcome.done sleeps
  | (f, st) :: rest, sleeps =>
      match poll_file f st sleeps with
      | WaitOutcome.done s => wait_for_files_active rest s
      | out => out

/-- Embedding of main (source lines 115-125): upload, wait for the uploaded
file to become active, and only then run the chunking pipeline over the
directory; if the wait raises, no chunking happens.  The pool completion
order is taken to be the identity enumeration order. -/
def main_run (file : RemoteFile) (statuses : List String) (input_dir : String)
    (dir : Directory) : Option (List Record) :=
  match wait_for_files_active [(file, statuses)] [] with
  | WaitOutcome.done _ =>
      some (generate_json_dataset input_dir dir
        (List.range (text_files input_dir dir.entries).length))
  | _ => none

lemma poll_file_skips (file : RemoteFile) :
    ∀ pre : List String, (∀ s ∈ pre, s ≠ "ACTIVE" ∧ s ≠ "FAILED") →
      ∀ (tail : List String) (sleeps : List Nat),
        poll_file file (pre ++ tail) sleeps
          = poll_file file tail (sleeps ++ List.replicate pre.length 10) := by
  intro pre
  induction pre with
  | nil =>
      intro _ tail sleeps
      simp
  | cons p ps ih =>
      intro h tail sleeps
      have hp := h p (List.mem_cons_self _ _)
      rw [List.cons_append]
      simp only [poll_file, if_neg hp.1, if_neg hp.2]
      rw [ih (fun s hs => h s (List.mem_cons_of_mem _ hs)) tail (sleeps ++ [10])]
      rw [List.length_cons, List.replicate_succ, List.append_assoc]
      rfl

/-- C8: while the remote file reports neither ACTIVE nor FAILED, the poll
loop sleeps a fixed 10 time units after each check; it returns as soon as the
status is ACTIVE, having slept once per preceding non-terminal check, and it
raises an error naming the file as soon as the status is FAILED; a FAILED
status aborts the run before any chunking occurs, while an ACTIVE status lets
the run proceed to the chunking pipeline. -/
theorem wait_for_files_active_poll_behavior (file : RemoteFile)
    (pre rest1 rest2 : List String) (input_dir : String) (dir : Directory)
    (h : ∀ s ∈ pre, s ≠ "ACTIVE" ∧ s ≠ "FAILED") :
    poll_file file (pre ++ "ACTIVE" :: rest1) []
        = WaitOutcome.done (List.replicate pre.length 10)
      ∧ poll_file file (pre ++ "FAILED" :: rest2) []
          = WaitOutcome.failed ("File " ++ file.name ++ " failed to process")
              (List.replicate pre.length 10)
      ∧ main_run file (pre ++ "FAILED" :: rest2) input_dir dir = none
      ∧ main_run file (pre ++ "ACTIVE" :: rest1) input_dir dir
          = some (generate_json_dataset input_dir dir
              (List.range (text_files input_dir dir.entries).length)) := by
  have hA : poll_file file (pre ++ "ACTIVE" :: rest1) []
      = WaitOutcome.done (List.replicate pre.length 10) := by
    rw [poll_file_skips file pre h ("ACTIVE" :: rest1) []]
    simp [poll_file]
  have hF : poll_file file (pre ++ "FAILED" :: rest2) []
      = WaitOutcome.failed ("File " ++ file.name ++ " failed to process")
          (List.replicate pre.length 10) := by
    rw [poll_file_skips file pre h ("FAILED" :: rest2) []]
    simp [poll_file]
  refine ⟨hA, hF, ?_, ?_⟩
  · unfold main_run
    simp only [wait_for_files_active]
    rw [hF]
  · unfold main_run
    simp only [wait_for_files_active]
    rw [hA]

/-- A concrete remote file handle for the closed witness. -/
def fileW : RemoteFile := { name := "files/novel1", display_name := "novel1" }

/-- C8 witness: for the status sequence PROCESSING, PROCESSING, ACTIVE the
loop sleeps exactly twice before proceeding, and a FAILED status after the
same two checks aborts the run with the error naming the file. -/
theorem wait_for_files_active_poll_behavior_witness :
    poll_file fileW (["PROCESSING", "PROCESSING"] ++ "ACTIVE" :: []) []
        = WaitOutcome.done (List.replicate 2 10)
      ∧ poll_file fileW (["PROCESSING", "PROCESSING"] ++ "FAILED" :: []) []
          = WaitOutcome.failed ("File " ++ fileW.name ++ " failed to process")
              (List.replicate 2 10)
      ∧ main_run fileW (["PROCESSING", "PROCESSING"] ++ "FAILED" :: []) "in" dirW = none
      ∧ main_run fileW (["PROCESSING", "PROCESSING"] ++ "ACTIVE" :: []) "in" dirW
          = some (generate_json_dataset "in" dirW
              (List.range (text_files "in" dirW.entries).length)) :=
  wait_for_files_active_poll_behavior fileW ["PROCESSING", "PROCESSING"] [] [] "in" dirW
    (by decide)

end Novel
